import Mathlib

/-!
Verification of the TSP routines of `Proyectus.py`: the exhaustive search
`busqueda_exhaustiva`, the greedy heuristic `vecino_mas_cercano`, the
Euclidean distance-matrix construction, and the comparison stage's `gap`
computation.  Routes are lists of city indices; the distance matrix is
modelled as a function on indices with values in a linear ordered field.
-/

namespace Proyectus

variable {α : Type} [LinearOrderedField α]

/-- Total cost of a route: the sum of the weights of consecutive edges,
mirroring the accumulation loops of `Proyectus.py`. -/
def costo (M : ℕ → ℕ → α) : List ℕ → α
  | [] => 0
  | [_] => 0
  | a :: b :: rest => M a b + costo M (b :: rest)

/-- Permutation generator: `permsGo fuel l` enumerates, for `fuel = l.length`,
all permutations of `l`, choosing each successive head in the order the
elements occur in `l`.  On a sorted input this yields exactly the
lexicographic enumeration order of python's `itertools.permutations`
(proved below as `perms_pairwise_lex`). -/
def permsGo : ℕ → List ℕ → List (List ℕ)
  | 0, _ => [[]]
  | fuel + 1, l =>
    ((List.range l.length).map
      (fun i => (permsGo fuel (l.eraseIdx i)).map (fun p => l.getD i 0 :: p))).flatten

/-- All permutations of `l`, in the enumeration order of
`itertools.permutations`. -/
def perms (l : List ℕ) : List (List ℕ) :=
  permsGo l.length l

/-- One iteration of the exhaustive-search loop: the running best
`(mejor_ruta, min_distancia)` pair (`none` standing for the initial
`(None, inf)`) is replaced exactly when the candidate permutation's closed
route is strictly shorter. -/
def beStep (M : ℕ → ℕ → α) (best : Option (List ℕ × α)) (p : List ℕ) :
    Option (List ℕ × α) :=
  let ruta := 0 :: (p ++ [0])
  let d := costo M ruta
  match best with
  | none => some (ruta, d)
  | some (r, m) => if d < m then some (ruta, d) else some (r, m)

/-- Embedding of `busqueda_exhaustiva`: fold over all permutations of
`range(1, n)` in enumeration order, keeping the first strictly improving
closed route `[0] + perm + [0]`; the result is the final
`(mejor_ruta, min_distancia)` pair. -/
def busqueda_exhaustiva (n : ℕ) (M : ℕ → ℕ → α) : Option (List ℕ × α) :=
  (perms (List.range' 1 (n - 1))).foldl (beStep M) none

/-- Inner loop of `vecino_mas_cercano`: scan the unvisited list `v :: rest` in
order, keeping the strictly closest city to `actual` (the first minimum wins,
as with the `d < min_dist_local` comparison started from infinity, which
always accepts the first element scanned). -/
def masCercana (M : ℕ → ℕ → α) (actual v : ℕ) (rest : List ℕ) : ℕ × α :=
  rest.foldl (fun best w => if M actual w < best.2 then (w, M actual w) else best)
    (v, M actual v)

/-- Outer loop of `vecino_mas_cercano`.  The python `while` loop runs exactly
once per unvisited city, so it is embedded with `fuel` equal to the length of
the unvisited list; the fuel-exhausted branch is unreachable under that
invariant. -/
def nnLoop (M : ℕ → ℕ → α) : ℕ → List ℕ → ℕ → List ℕ → α → List ℕ × α
  | _, [], actual, ruta, dist => (ruta ++ [0], dist + M actual 0)
  | 0, _ :: _, _, ruta, dist => (ruta, dist)
  | fuel + 1, v :: rest, actual, ruta, dist =>
    let bm := masCercana M actual v rest
    nnLoop M fuel ((v :: rest).erase bm.1) bm.1 (ruta ++ [bm.1]) (dist + bm.2)

/-- Embedding of `vecino_mas_cercano`: start at city 0 with unvisited set
`range(1, n)` (modelled as the ascending list, matching the iteration order of
the python set of small integers), repeatedly move to the nearest unvisited
city, then close the cycle back to city 0. -/
def vecino_mas_cercano (n : ℕ) (M : ℕ → ℕ → α) : List ℕ × α :=
  nnLoop M (n - 1) (List.range' 1 (n - 1)) 0 [0] 0

/-- Embedding of `calcular_distancia`: Euclidean distance between two
points. -/
noncomputable def calcular_distancia (p1 p2 : ℝ × ℝ) : ℝ :=
  Real.sqrt ((p1.1 - p2.1) ^ 2 + (p1.2 - p2.2) ^ 2)

/-- Embedding of the `matriz_distancias` construction:
`matriz[i][j] = calcular_distancia(coords[i], coords[j])`. -/
noncomputable def matriz_distancias (coords : List (ℝ × ℝ)) (i j : ℕ) : ℝ :=
  calcular_distancia (coords.getD i (0, 0)) (coords.getD j (0, 0))

/-- Python runtime error raised by float division with a zero divisor. -/
inductive PyError where
  | zeroDivisionError
deriving DecidableEq

/-- Embedding of the comparison stage
`gap = ((dist_nn - dist_optima) / dist_optima) * 100` of `Proyectus.py`,
line 129: python float division raises `ZeroDivisionError` when the divisor
is zero, and the line guards nothing. -/
def gap (dist_nn dist_optima : α) : Except PyError α :=
  if dist_optima = 0 then Except.error PyError.zeroDivisionError
  else Except.ok ((dist_nn - dist_optima) / dist_optima * 100)

/-- Route invariant from the spec's data model: length `n + 1`, starting and
ending at index 0, the interior being a permutation of the indices
`1 .. n-1`. -/
def RutaValida (n : ℕ) (r : List ℕ) : Prop :=
  r.length = n + 1 ∧ r.head? = some 0 ∧ r.getLast? = some 0 ∧
    ∃ mid, r = 0 :: (mid ++ [0]) ∧ mid.Perm (List.range' 1 (n - 1))

/-- Step-by-step characterisation of the greedy construction: starting from
`actual` with unvisited list `nv`, each successive route element is an
unvisited city at minimal distance from the current position, and the walk
stops exactly when every city has been visited. -/
def greedyChoices (M : ℕ → ℕ → α) : ℕ → List ℕ → List ℕ → Prop
  | _, nv, [] => nv = []
  | actual, nv, x :: rest =>
    x ∈ nv ∧ (∀ y ∈ nv, M actual x ≤ M actual y) ∧ greedyChoices M x (nv.erase x) rest

/-- The closed route `[0] + perm + [0]` built from a permutation of the
non-start cities, as in line 58 of `Proyectus.py`. -/
def mkRuta (p : List ℕ) : List ℕ :=
  0 :: (p ++ [0])

/-- Appending a final vertex adds the edge from the previous last vertex. -/
lemma costo_concat (M : ℕ → ℕ → α) :
    ∀ (l : List ℕ) (a : ℕ),
      costo M (l ++ [a]) = costo M l + (l.getLast?).elim 0 (fun b => M b a)
  | [], a => by simp [costo]
  | [x], a => by simp [costo]
  | x :: y :: t, a => by
    have ih := costo_concat M (y :: t) a
    simp only [List.cons_append, List.append_eq, costo, List.getLast?_cons_cons] at ih ⊢
    rw [ih]
    ring

/-- Reversing a route preserves its total cost when the matrix is symmetric. -/
lemma costo_reverse (M : ℕ → ℕ → α) (hsym : ∀ i j, M i j = M j i) :
    ∀ r : List ℕ, costo M r.reverse = costo M r
  | [] => by simp [costo]
  | x :: r => by
    have ih := costo_reverse M hsym r
    rw [List.reverse_cons, costo_concat, List.getLast?_reverse, ih]
    cases r with
    | nil => simp [costo]
    | cons y t =>
      simp only [List.head?_cons, Option.elim, costo, hsym y x]
      ring

/-- Unrolling the scan of `masCercana` by one element. -/
lemma masCercana_cons (M : ℕ → ℕ → α) (a v w : ℕ) (rest : List ℕ) :
    masCercana M a v (w :: rest) =
      if M a w < M a v then masCercana M a w rest else masCercana M a v rest := by
  simp only [masCercana, List.foldl]
  by_cases h : M a w < M a v <;> simp [h]

/-- The city selected by `masCercana` is an unvisited city at minimal distance
from the current position, and the returned distance is its edge weight. -/
lemma masCercana_spec (M : ℕ → ℕ → α) (a : ℕ) :
    ∀ (rest : List ℕ) (v : ℕ),
      (masCercana M a v rest).2 = M a (masCercana M a v rest).1 ∧
      (masCercana M a v rest).1 ∈ v :: rest ∧
      ∀ w ∈ v :: rest, M a (masCercana M a v rest).1 ≤ M a w
  | [], v => by simp [masCercana]
  | w :: rest, v => by
    rw [masCercana_cons]
    by_cases h : M a w < M a v
    · rw [if_pos h]
      obtain ⟨he, hmem, hmin⟩ := masCercana_spec M a rest w
      refine ⟨he, ?_, ?_⟩
      · simp only [List.mem_cons] at hmem ⊢
        tauto
      · intro u hu
        simp only [List.mem_cons] at hu
        rcases hu with rfl | hu
        · exact le_of_lt (lt_of_le_of_lt (hmin w (by simp)) h)
        · exact hmin u (by simp [hu])
    · rw [if_neg h]
      obtain ⟨he, hmem, hmin⟩ := masCercana_spec M a rest v
      refine ⟨he, ?_, ?_⟩
      · simp only [List.mem_cons] at hmem ⊢
        tauto
      · intro u hu
        simp only [List.mem_cons] at hu
        rcases hu with rfl | rfl | hu
        · exact hmin u (by simp)
        · exact le_trans (hmin v (by simp)) (le_of_not_lt h)
        · exact hmin u (by simp [hu])

/-- Main invariant of the greedy loop: starting with unvisited list `nv` (and
fuel equal to its length, as in `vecino_mas_cercano`), the loop appends a
greedily chosen ordering `mid` of `nv` followed by the return to city 0, and
adds exactly the cost of the walk `actual :: mid ++ [0]` to the accumulator. -/
lemma nnLoop_spec (M : ℕ → ℕ → α) :
    ∀ (fuel : ℕ) (nv : List ℕ), nv.length = fuel →
      ∀ (actual : ℕ) (ruta : List ℕ) (dist : α),
        ∃ mid : List ℕ, mid.Perm nv ∧ greedyChoices M actual nv mid ∧
          nnLoop M fuel nv actual ruta dist =
            (ruta ++ (mid ++ [0]), dist + costo M (actual :: (mid ++ [0]))) := by
  intro fuel
  induction fuel with
  | zero =>
    intro nv hnv actual ruta dist
    have hnil : nv = [] := List.length_eq_zero.mp hnv
    subst hnil
    refine ⟨[], .refl _, rfl, ?_⟩
    simp [nnLoop, costo]
  | succ fuel ih =>
    intro nv hnv actual ruta dist
    cases nv with
    | nil => simp at hnv
    | cons v rest =>
      obtain ⟨he, hmem, hmin⟩ := masCercana_spec M actual rest v
      have hlen : ((v :: rest).erase (masCercana M actual v rest).1).length = fuel := by
        rw [List.length_erase_of_mem hmem]
        simpa using hnv
      obtain ⟨mid', hperm', hgc', heq'⟩ :=
        ih ((v :: rest).erase (masCercana M actual v rest).1) hlen
          (masCercana M actual v rest).1 (ruta ++ [(masCercana M actual v rest).1])
          (dist + (masCercana M actual v rest).2)
      refine ⟨(masCercana M actual v rest).1 :: mid', ?_, ?_, ?_⟩
      · exact (hperm'.cons _).trans (List.perm_cons_erase hmem).symm
      · exact ⟨hmem, hmin, hgc'⟩
      · rw [show nnLoop M (fuel + 1) (v :: rest) actual ruta dist =
            nnLoop M fuel ((v :: rest).erase (masCercana M actual v rest).1)
              (masCercana M actual v rest).1 (ruta ++ [(masCercana M actual v rest).1])
              (dist + (masCercana M actual v rest).2) from rfl, heq', Prod.mk.injEq]
        refine ⟨by simp, ?_⟩
        simp only [List.cons_append, List.append_eq, costo, he]
        ring

/-- Full specification of `vecino_mas_cercano`: it returns a closed route
`0 :: mid ++ [0]` whose interior `mid` is a greedily chosen ordering of
`range(1, n)`, paired with exactly that route's total cost. -/
lemma vecino_spec (n : ℕ) (M : ℕ → ℕ → α) :
    ∃ mid : List ℕ, mid.Perm (List.range' 1 (n - 1)) ∧
      greedyChoices M 0 (List.range' 1 (n - 1)) mid ∧
      vecino_mas_cercano n M = (0 :: (mid ++ [0]), costo M (0 :: (mid ++ [0]))) := by
  obtain ⟨mid, h1, h2, h3⟩ :=
    nnLoop_spec M (n - 1) (List.range' 1 (n - 1)) (by simp) 0 [0] 0
  refine ⟨mid, h1, h2, ?_⟩
  simp only [vecino_mas_cercano, h3, List.singleton_append, zero_add]

/-- Putting the element at index `i` in front of the list with index `i`
erased permutes the list. -/
lemma cons_eraseIdx_perm :
    ∀ (l : List ℕ) (i : ℕ), i < l.length → (l.getD i 0 :: l.eraseIdx i).Perm l
  | [], i, h => absurd h (by simp)
  | b :: t, 0, _ => List.Perm.refl _
  | b :: t, i + 1, h => by
    have ih := cons_eraseIdx_perm t i (by simpa using h)
    have hrw : (b :: t).getD (i + 1) 0 :: (b :: t).eraseIdx (i + 1)
        = t.getD i 0 :: b :: t.eraseIdx i := rfl
    rw [hrw]
    exact (List.Perm.swap b (t.getD i 0) (t.eraseIdx i)).trans (ih.cons b)

/-- Every member of a list occurs at an index whose removal coincides with
`erase`. -/
lemma exists_idx_of_mem :
    ∀ (l : List ℕ) (a : ℕ), a ∈ l →
      ∃ i, i < l.length ∧ l.getD i 0 = a ∧ l.eraseIdx i = l.erase a
  | [], a, h => absurd h (by simp)
  | b :: t, a, h => by
    rcases eq_or_ne a b with rfl | hne
    · exact ⟨0, by simp, rfl, by rw [List.erase_cons_head]; rfl⟩
    · have hmem : a ∈ t := by
        rcases List.mem_cons.mp h with rfl | h'
        · exact absurd rfl hne
        · exact h'
      obtain ⟨i, hi, hget, herase⟩ := exists_idx_of_mem t a hmem
      refine ⟨i + 1, by simpa using hi, hget, ?_⟩
      rw [show (b :: t).eraseIdx (i + 1) = b :: t.eraseIdx i from rfl, herase,
        List.erase_cons_tail (by simpa using Ne.symm hne)]

/-- Soundness of the permutation generator: everything it produces is a
permutation of the input. -/
lemma permsGo_sound :
    ∀ (fuel : ℕ) (l : List ℕ), l.length = fuel →
      ∀ p ∈ permsGo fuel l, p.Perm l := by
  intro fuel
  induction fuel with
  | zero =>
    intro l hl p hp
    have hnil : l = [] := List.length_eq_zero.mp hl
    subst hnil
    simp only [permsGo, List.mem_singleton] at hp
    subst hp
    exact List.Perm.refl _
  | succ fuel ih =>
    intro l hl p hp
    simp only [permsGo] at hp
    obtain ⟨block, hblock, hpblock⟩ := List.mem_flatten.mp hp
    obtain ⟨i, hi, rfl⟩ := List.mem_map.mp hblock
    obtain ⟨q, hq, rfl⟩ := List.mem_map.mp hpblock
    have hi' : i < l.length := List.mem_range.mp hi
    have hlen : (l.eraseIdx i).length = fuel := by
      rw [List.length_eraseIdx, if_pos hi', hl]
      omega
    have hqperm := ih (l.eraseIdx i) hlen q hq
    exact (hqperm.cons _).trans (cons_eraseIdx_perm l i hi')

/-- Completeness of the permutation generator: every permutation of the input
is produced. -/
lemma permsGo_complete :
    ∀ (fuel : ℕ) (l : List ℕ), l.length = fuel →
      ∀ p : List ℕ, p.Perm l → p ∈ permsGo fuel l := by
  intro fuel
  induction fuel with
  | zero =>
    intro l hl p hperm
    have hnil : l = [] := List.length_eq_zero.mp hl
    subst hnil
    rw [hperm.eq_nil]
    simp [permsGo]
  | succ fuel ih =>
    intro l hl p hperm
    cases p with
    | nil =>
      rw [hperm.symm.eq_nil] at hl
      simp at hl
    | cons a q =>
      have hmem : a ∈ l := hperm.subset (List.mem_cons_self a q)
      obtain ⟨i, hi, hget, herase⟩ := exists_idx_of_mem l a hmem
      have hqperm : q.Perm (l.erase a) := (List.cons_perm_iff_perm_erase.mp hperm).2
      have hlen : (l.eraseIdx i).length = fuel := by
        rw [List.length_eraseIdx, if_pos hi, hl]
        omega
      have hq : q ∈ permsGo fuel (l.eraseIdx i) :=
        ih (l.eraseIdx i) hlen q (by rw [herase]; exact hqperm)
      simp only [permsGo]
      refine List.mem_flatten.mpr
        ⟨List.map (fun p => l.getD i 0 :: p) (permsGo fuel (l.eraseIdx i)),
          List.mem_map.mpr ⟨i, List.mem_range.mpr hi, rfl⟩,
          List.mem_map.mpr ⟨q, hq, by rw [hget]⟩⟩

/-- Everything `perms` produces is a permutation of the input. -/
lemma perms_sound (l : List ℕ) (p : List ℕ) (hp : p ∈ perms l) : p.Perm l :=
  permsGo_sound l.length l rfl p hp

/-- Every permutation of the input appears in `perms`. -/
lemma perms_complete (l : List ℕ) (p : List ℕ) (hperm : p.Perm l) : p ∈ perms l :=
  permsGo_complete l.length l rfl p hperm

/-- The permutation list is never empty. -/
lemma perms_ne_nil (l : List ℕ) : perms l ≠ [] := by
  intro h
  have hmem := perms_complete l l (List.Perm.refl l)
  rw [h] at hmem
  simp at hmem

/-- On an input that is sorted strictly upward, the generator enumerates
permutations in strictly increasing lexicographic order, exactly as
`itertools.permutations` does on `range(1, n)`. -/
lemma permsGo_pairwise_lex :
    ∀ (fuel : ℕ) (l : List ℕ), l.length = fuel → l.Pairwise (· < ·) →
      (permsGo fuel l).Pairwise (List.Lex (· < ·)) := by
  intro fuel
  induction fuel with
  | zero =>
    intro l _ _
    simp [permsGo]
  | succ fuel ih =>
    intro l hl hsort
    simp only [permsGo]
    rw [List.pairwise_flatten]
    constructor
    · intro block hblock
      obtain ⟨i, hi, rfl⟩ := List.mem_map.mp hblock
      rw [List.pairwise_map]
      have hi' : i < l.length := List.mem_range.mp hi
      have hlen : (l.eraseIdx i).length = fuel := by
        rw [List.length_eraseIdx, if_pos hi', hl]
        omega
      have hsort' : (l.eraseIdx i).Pairwise (· < ·) :=
        hsort.sublist (List.eraseIdx_sublist l i)
      exact (ih (l.eraseIdx i) hlen hsort').imp (fun h => List.Lex.cons h)
    · rw [List.pairwise_map]
      refine (List.pairwise_lt_range l.length).imp_of_mem ?_
      intro i j hi hj hij x hx y hy
      obtain ⟨p, _, rfl⟩ := List.mem_map.mp hx
      obtain ⟨q, _, rfl⟩ := List.mem_map.mp hy
      have hi' : i < l.length := List.mem_range.mp hi
      have hj' : j < l.length := List.mem_range.mp hj
      have hlt : l.getD i 0 < l.getD j 0 := by
        rw [List.getD_eq_getElem l 0 hi', List.getD_eq_getElem l 0 hj']
        exact List.pairwise_iff_getElem.mp hsort i j hi' hj' hij
      exact List.Lex.rel hlt

/-- Lexicographic enumeration order of `perms` on sorted input. -/
lemma perms_pairwise_lex (l : List ℕ) (hsort : l.Pairwise (· < ·)) :
    (perms l).Pairwise (List.Lex (· < ·)) :=
  permsGo_pairwise_lex l.length l rfl hsort

/-- The list `range' 1 k` is sorted strictly upward. -/
lemma range'_pairwise_lt (k : ℕ) : (List.range' 1 k).Pairwise (· < ·) := by
  rw [List.range'_eq_map_range, List.pairwise_map]
  exact (List.pairwise_lt_range k).imp (fun h => by omega)

/-- Unfolding `beStep` on the initial `(None, inf)` accumulator: the first
candidate route is always accepted. -/
lemma beStep_none (M : ℕ → ℕ → α) (p : List ℕ) :
    beStep M none p = some (mkRuta p, costo M (mkRuta p)) := rfl

/-- Unfolding `beStep` on a running best pair: it is replaced exactly when the
candidate's cost is strictly smaller. -/
lemma beStep_some (M : ℕ → ℕ → α) (r : List ℕ) (c : α) (p : List ℕ) :
    beStep M (some (r, c)) p =
      if costo M (mkRuta p) < c then some (mkRuta p, costo M (mkRuta p))
      else some (r, c) := rfl

/-- Characterisation of the exhaustive-search fold started at a running best
`(r, c)`: either no candidate beats `c` and the pair is kept, or the result is
the candidate at the first index attaining the minimum cost, which is strictly
below `c`, below every candidate, and strictly below every earlier one. -/
lemma foldl_beStep_char (M : ℕ → ℕ → α) :
    ∀ (L : List (List ℕ)) (r : List ℕ) (c : α),
      (L.foldl (beStep M) (some (r, c)) = some (r, c) ∧
        ∀ p ∈ L, c ≤ costo M (mkRuta p)) ∨
      (∃ i, ∃ hi : i < L.length,
        L.foldl (beStep M) (some (r, c)) =
          some (mkRuta (L.get ⟨i, hi⟩), costo M (mkRuta (L.get ⟨i, hi⟩))) ∧
        costo M (mkRuta (L.get ⟨i, hi⟩)) < c ∧
        (∀ p ∈ L, costo M (mkRuta (L.get ⟨i, hi⟩)) ≤ costo M (mkRuta p)) ∧
        ∀ j, ∀ hj : j < i,
          costo M (mkRuta (L.get ⟨i, hi⟩)) <
            costo M (mkRuta (L.get ⟨j, lt_trans hj hi⟩))) := by
  intro L
  induction L with
  | nil =>
    intro r c
    left
    exact ⟨rfl, by simp⟩
  | cons p₀ L ih =>
    intro r c
    rw [List.foldl_cons, beStep_some]
    by_cases h : costo M (mkRuta p₀) < c
    · rw [if_pos h]
      rcases ih (mkRuta p₀) (costo M (mkRuta p₀)) with
        ⟨heq, hmin⟩ | ⟨i, hi, heq, hlt, hmin, hfirst⟩
      · right
        refine ⟨0, by simp, heq, h, ?_, ?_⟩
        · intro p hp
          rcases List.mem_cons.mp hp with rfl | hp
          · exact le_refl _
          · exact hmin p hp
        · intro j hj
          exact absurd hj (Nat.not_lt_zero j)
      · right
        refine ⟨i + 1, Nat.succ_lt_succ hi, heq, lt_trans hlt h, ?_, ?_⟩
        · intro p hp
          rcases List.mem_cons.mp hp with rfl | hp
          · exact le_of_lt hlt
          · exact hmin p hp
        · intro j hj
          cases j with
          | zero => exact hlt
          | succ j => exact hfirst j (Nat.lt_of_succ_lt_succ hj)
    · rw [if_neg h]
      have hc : c ≤ costo M (mkRuta p₀) := le_of_not_lt h
      rcases ih r c with ⟨heq, hmin⟩ | ⟨i, hi, heq, hlt, hmin, hfirst⟩
      · left
        refine ⟨heq, ?_⟩
        intro p hp
        rcases List.mem_cons.mp hp with rfl | hp
        · exact hc
        · exact hmin p hp
      · right
        refine ⟨i + 1, Nat.succ_lt_succ hi, heq, hlt, ?_, ?_⟩
        · intro p hp
          rcases List.mem_cons.mp hp with rfl | hp
          · exact le_trans (le_of_lt hlt) hc
          · exact hmin p hp
        · intro j hj
          cases j with
          | zero => exact lt_of_lt_of_le hlt hc
          | succ j => exact hfirst j (Nat.lt_of_succ_lt_succ hj)

/-- Characterisation of the exhaustive-search fold started at `(None, inf)` on
a nonempty candidate list: the result is the candidate at the first index
attaining the minimum cost. -/
lemma foldl_beStep_none_char (M : ℕ → ℕ → α) (L : List (List ℕ)) (hL : L ≠ []) :
    ∃ i, ∃ hi : i < L.length,
      L.foldl (beStep M) none =
        some (mkRuta (L.get ⟨i, hi⟩), costo M (mkRuta (L.get ⟨i, hi⟩))) ∧
      (∀ p ∈ L, costo M (mkRuta (L.get ⟨i, hi⟩)) ≤ costo M (mkRuta p)) ∧
      ∀ j, ∀ hj : j < i,
        costo M (mkRuta (L.get ⟨i, hi⟩)) <
          costo M (mkRuta (L.get ⟨j, lt_trans hj hi⟩)) := by
  cases L with
  | nil => exact absurd rfl hL
  | cons p₀ L =>
    rw [List.foldl_cons, beStep_none]
    rcases foldl_beStep_char M L (mkRuta p₀) (costo M (mkRuta p₀)) with
      ⟨heq, hmin⟩ | ⟨i, hi, heq, hlt, hmin, hfirst⟩
    · refine ⟨0, by simp, heq, ?_, ?_⟩
      · intro p hp
        rcases List.mem_cons.mp hp with rfl | hp
        · exact le_refl _
        · exact hmin p hp
      · intro j hj
        exact absurd hj (Nat.not_lt_zero j)
    · refine ⟨i + 1, Nat.succ_lt_succ hi, heq, ?_, ?_⟩
      · intro p hp
        rcases List.mem_cons.mp hp with rfl | hp
        · exact le_of_lt hlt
        · exact hmin p hp
      · intro j hj
        cases j with
        | zero => exact hlt
        | succ j => exact hfirst j (Nat.lt_of_succ_lt_succ hj)

/-- Characterisation of `busqueda_exhaustiva`: it returns the closed route of
the permutation at the first index of the enumeration attaining the minimum
total cost. -/
lemma busq_char (n : ℕ) (M : ℕ → ℕ → α) :
    ∃ i, ∃ hi : i < (perms (List.range' 1 (n - 1))).length,
      busqueda_exhaustiva n M =
        some (mkRuta ((perms (List.range' 1 (n - 1))).get ⟨i, hi⟩),
          costo M (mkRuta ((perms (List.range' 1 (n - 1))).get ⟨i, hi⟩))) ∧
      (∀ p ∈ perms (List.range' 1 (n - 1)),
        costo M (mkRuta ((perms (List.range' 1 (n - 1))).get ⟨i, hi⟩)) ≤
          costo M (mkRuta p)) ∧
      ∀ j, ∀ hj : j < i,
        costo M (mkRuta ((perms (List.range' 1 (n - 1))).get ⟨i, hi⟩)) <
          costo M (mkRuta ((perms (List.range' 1 (n - 1))).get ⟨j, lt_trans hj hi⟩)) :=
  foldl_beStep_none_char M (perms (List.range' 1 (n - 1)))
    (perms_ne_nil (List.range' 1 (n - 1)))

/-- With a single city there are no permutations to place between the two
endpoints: the exhaustive search returns the degenerate closed route. -/
lemma busq_one (M : ℕ → ℕ → α) :
    busqueda_exhaustiva 1 M = some ([0, 0], M 0 0) := by
  simp [busqueda_exhaustiva, perms, permsGo, beStep, costo, List.range']

/-- With a single city the greedy loop body never runs: the heuristic returns
the degenerate closed route. -/
lemma nn_one (M : ℕ → ℕ → α) :
    vecino_mas_cercano 1 M = ([0, 0], M 0 0) := by
  simp [vecino_mas_cercano, nnLoop, List.range']

/-- A permuted interior yields a valid route for `n ≥ 2`. -/
lemma rutaValida_of_perm (n : ℕ) (hn : 2 ≤ n) (mid : List ℕ)
    (hperm : mid.Perm (List.range' 1 (n - 1))) :
    RutaValida n (0 :: (mid ++ [0])) := by
  have hml : mid.length = n - 1 := by
    rw [hperm.length_eq, List.length_range']
  refine ⟨?_, rfl, ?_, mid, rfl, hperm⟩
  · have h2 : (0 :: (mid ++ [0])).length = mid.length + 2 := by simp
    rw [h2, hml]
    omega
  · rw [show (0 : ℕ) :: (mid ++ [0]) = (0 :: mid) ++ [0] from rfl, List.getLast?_concat]

example : perms [1, 2, 3] =
    [[1, 2, 3], [1, 3, 2], [2, 1, 3], [2, 3, 1], [3, 1, 2], [3, 2, 1]] := by decide

example : busqueda_exhaustiva 3 (fun _ _ => (0 : ℚ)) = some ([0, 1, 2, 0], 0) := by
  simp [busqueda_exhaustiva, perms, permsGo, beStep, costo, List.range',
    List.range_succ, List.eraseIdx, List.getD]

example : vecino_mas_cercano 3 (fun _ _ => (0 : ℚ)) = ([0, 1, 2, 0], 0) := by
  simp [vecino_mas_cercano, nnLoop, masCercana, List.range', List.range_succ]

example : vecino_mas_cercano 3 (fun i j => ((i : ℚ) - j) ^ 2) = ([0, 1, 2, 0], 6) := by
  norm_num [vecino_mas_cercano, nnLoop, masCercana, List.range', List.range_succ,
    List.erase_cons]

example : gap (5 : ℚ) 0 = Except.error PyError.zeroDivisionError := by
  simp [gap]

/-- C1: for every `n ≥ 2` and every symmetric non-negative distance matrix,
`busqueda_exhaustiva` returns a route whose reported cost equals the sum of
its consecutive edge weights and is minimal among all Hamiltonian cycles
`[0, p_1, ..., p_{n-1}, 0]` over permutations of `1 .. n-1`. -/
theorem C1_busqueda_exhaustiva_optimal (n : ℕ) (hn : 2 ≤ n) (M : ℕ → ℕ → α)
    (hsym : ∀ i j, M i j = M j i) (hnonneg : ∀ i j, 0 ≤ M i j) :
    ∃ r c, busqueda_exhaustiva n M = some (r, c) ∧ c = costo M r ∧
      ∀ p : List ℕ, p.Perm (List.range' 1 (n - 1)) →
        c ≤ costo M (0 :: (p ++ [0])) := by
  obtain ⟨i, hi, heq, hmin, _⟩ := busq_char n M
  refine ⟨_, _, heq, rfl, ?_⟩
  intro p hp
  exact hmin p (perms_complete _ p hp)

/-- Witness for C1 at `n = 3` with the zero matrix over `ℚ`. -/
theorem C1_busqueda_exhaustiva_optimal_witness :
    ∃ r c, busqueda_exhaustiva 3 (fun _ _ => (0 : ℚ)) = some (r, c) ∧
      c = costo (fun _ _ => (0 : ℚ)) r ∧
      ∀ p : List ℕ, p.Perm (List.range' 1 (3 - 1)) →
        c ≤ costo (fun _ _ => (0 : ℚ)) (0 :: (p ++ [0])) :=
  C1_busqueda_exhaustiva_optimal 3 (by norm_num) _ (fun _ _ => rfl)
    (fun _ _ => le_refl 0)

/-- C2: for every `n ≥ 2` and the same distance matrix, the cost returned by
the exhaustive search is at most the cost returned by the greedy heuristic. -/
theorem C2_exhaustiva_le_vecino (n : ℕ) (hn : 2 ≤ n) (M : ℕ → ℕ → α) :
    ∃ r c, busqueda_exhaustiva n M = some (r, c) ∧
      c ≤ (vecino_mas_cercano n M).2 := by
  obtain ⟨i, hi, heq, hmin, _⟩ := busq_char n M
  obtain ⟨mid, hperm, _, hv⟩ := vecino_spec n M
  refine ⟨_, _, heq, ?_⟩
  rw [hv]
  exact hmin mid (perms_complete _ mid hperm)

/-- Witness for C2 at `n = 3` with the zero matrix over `ℚ`. -/
theorem C2_exhaustiva_le_vecino_witness :
    ∃ r c, busqueda_exhaustiva 3 (fun _ _ => (0 : ℚ)) = some (r, c) ∧
      c ≤ (vecino_mas_cercano 3 (fun _ _ => (0 : ℚ))).2 :=
  C2_exhaustiva_le_vecino 3 (by norm_num) _

/-- C3: for every `n ≥ 2`, the routes returned by both solvers satisfy the
route invariant: length `n + 1`, first and last element 0, and interior
exactly the indices `1 .. n-1` without repetition. -/
theorem C3_rutas_validas (n : ℕ) (hn : 2 ≤ n) (M : ℕ → ℕ → α) :
    (∃ r c, busqueda_exhaustiva n M = some (r, c) ∧ RutaValida n r) ∧
      RutaValida n (vecino_mas_cercano n M).1 := by
  constructor
  · obtain ⟨i, hi, heq, _, _⟩ := busq_char n M
    have hperm := perms_sound _ _ (List.get_mem _ i hi)
    exact ⟨_, _, heq, rutaValida_of_perm n hn _ hperm⟩
  · obtain ⟨mid, hperm, _, hv⟩ := vecino_spec n M
    rw [hv]
    exact rutaValida_of_perm n hn mid hperm

/-- Witness for C3 at `n = 2` with the zero matrix over `ℚ`. -/
theorem C3_rutas_validas_witness :
    (∃ r c, busqueda_exhaustiva 2 (fun _ _ => (0 : ℚ)) = some (r, c) ∧
      RutaValida 2 r) ∧
      RutaValida 2 (vecino_mas_cercano 2 (fun _ _ => (0 : ℚ))).1 :=
  C3_rutas_validas 2 (by norm_num) _

/-- C4: the greedy heuristic starts at 0 with unvisited `1 .. n-1`, at each
step appends an unvisited city at minimal distance from the current position
(removing it from the unvisited set and advancing to it), closes the cycle
back to 0, and its returned cost is the sum of consecutive edge weights of
its returned route. -/
theorem C4_vecino_greedy (n : ℕ) (hn : 2 ≤ n) (M : ℕ → ℕ → α) :
    ∃ mid : List ℕ,
      vecino_mas_cercano n M = (0 :: (mid ++ [0]), costo M (0 :: (mid ++ [0]))) ∧
      greedyChoices M 0 (List.range' 1 (n - 1)) mid ∧
      (vecino_mas_cercano n M).2 = costo M (vecino_mas_cercano n M).1 := by
  obtain ⟨mid, hperm, hgc, hv⟩ := vecino_spec n M
  exact ⟨mid, hv, hgc, by rw [hv]⟩

/-- Witness for C4 at `n = 2` with the zero matrix over `ℚ`. -/
theorem C4_vecino_greedy_witness :
    ∃ mid : List ℕ,
      vecino_mas_cercano 2 (fun _ _ => (0 : ℚ)) =
        (0 :: (mid ++ [0]), costo (fun _ _ => (0 : ℚ)) (0 :: (mid ++ [0]))) ∧
      greedyChoices (fun _ _ => (0 : ℚ)) 0 (List.range' 1 (2 - 1)) mid ∧
      (vecino_mas_cercano 2 (fun _ _ => (0 : ℚ))).2 =
        costo (fun _ _ => (0 : ℚ)) (vecino_mas_cercano 2 (fun _ _ => (0 : ℚ))).1 :=
  C4_vecino_greedy 2 (by norm_num) _

/-- C5: the distance matrix built from the coordinate list with the Euclidean
cost function has zero diagonal, is symmetric, and is entrywise
non-negative. -/
theorem C5_matriz_propiedades (coords : List (ℝ × ℝ)) (i j : ℕ)
    (hi : i < coords.length) (hj : j < coords.length) :
    matriz_distancias coords i i = 0 ∧
    matriz_distancias coords i j = matriz_distancias coords j i ∧
    0 ≤ matriz_distancias coords i j := by
  refine ⟨?_, ?_, Real.sqrt_nonneg _⟩
  · simp [matriz_distancias, calcular_distancia]
  · unfold matriz_distancias calcular_distancia
    congr 1
    ring

/-- Witness for C5 on a concrete two-point coordinate list. -/
theorem C5_matriz_propiedades_witness :
    matriz_distancias [(0, 0), (1, 0)] 0 0 = 0 ∧
    matriz_distancias [(0, 0), (1, 0)] 0 1 = matriz_distancias [(0, 0), (1, 0)] 1 0 ∧
    0 ≤ matriz_distancias [(0, 0), (1, 0)] 0 1 :=
  C5_matriz_propiedades [(0, 0), (1, 0)] 0 1 (by norm_num) (by norm_num)

/-- C6 is refuted: at `n = 1` neither solver raises anything; both return the
degenerate route `[0, 0]` normally (the code defines no `InvalidInputError`
at all). -/
theorem C6_counterexample :
    busqueda_exhaustiva 1 (fun _ _ => (1 : ℚ)) = some ([0, 0], 1) ∧
    vecino_mas_cercano 1 (fun _ _ => (1 : ℚ)) = ([0, 0], 1) :=
  ⟨busq_one _, nn_one _⟩

/-- C6 (amended): for `n = 1` both solvers return normally, with the
degenerate route `[0, 0]` and cost `matrix[0][0]`, instead of raising
`InvalidInputError`. -/
theorem C6_sin_error_n1 (M : ℕ → ℕ → α) :
    busqueda_exhaustiva 1 M = some ([0, 0], M 0 0) ∧
    vecino_mas_cercano 1 M = ([0, 0], M 0 0) :=
  ⟨busq_one M, nn_one M⟩

/-- C7 is refuted: with `exact_cost = 0` the gap computation raises
`ZeroDivisionError` instead of reporting "N/A". -/
theorem C7_counterexample :
    gap (5 : ℚ) 0 = Except.error PyError.zeroDivisionError := by
  simp [gap]

/-- C7 (amended): the comparison stage computes
`gap = (greedy_cost - exact_cost) / exact_cost * 100` when `exact_cost` is
nonzero, and raises `ZeroDivisionError` when `exact_cost = 0`. -/
theorem C7_gap_comportamiento (g e : α) :
    (e ≠ 0 → gap g e = Except.ok ((g - e) / e * 100)) ∧
    (e = 0 → gap g e = Except.error PyError.zeroDivisionError) := by
  constructor <;> intro h <;> simp [gap, h]

/-- Witness for the amended C7 at concrete inputs. -/
theorem C7_gap_comportamiento_witness :
    gap (5 : ℚ) 2 = Except.ok ((5 - 2) / 2 * 100) ∧
    gap (5 : ℚ) 0 = Except.error PyError.zeroDivisionError :=
  ⟨(C7_gap_comportamiento (5 : ℚ) 2).1 (by norm_num),
    (C7_gap_comportamiento (5 : ℚ) 0).2 rfl⟩

/-- C8: over a symmetric matrix, the total cost of any reversed route equals
the total cost of the route. -/
theorem C8_costo_reverse (M : ℕ → ℕ → α) (hsym : ∀ i j, M i j = M j i)
    (r : List ℕ) :
    costo M r.reverse = costo M r :=
  costo_reverse M hsym r

/-- Witness for C8 on a concrete route and symmetric matrix. -/
theorem C8_costo_reverse_witness :
    costo (fun _ _ => (1 : ℚ)) ([0, 1, 2, 0].reverse) =
      costo (fun _ _ => (1 : ℚ)) [0, 1, 2, 0] :=
  C8_costo_reverse (fun _ _ => (1 : ℚ)) (fun _ _ => rfl) [0, 1, 2, 0]

/-- C9: the exhaustive search's tie-break is deterministic: since permutations
are enumerated in lexicographic order and the comparison is strict, among all
minimum-cost Hamiltonian cycles the returned one has the lexicographically
smallest index sequence after the leading 0. -/
theorem C9_desempate_lexicografico (n : ℕ) (hn : 1 ≤ n) (M : ℕ → ℕ → α) :
    ∃ p c, busqueda_exhaustiva n M = some (0 :: (p ++ [0]), c) ∧
      ∀ q : List ℕ, q.Perm (List.range' 1 (n - 1)) →
        costo M (0 :: (q ++ [0])) = c → p = q ∨ List.Lex (· < ·) p q := by
  obtain ⟨i, hi, heq, hmin, hfirst⟩ := busq_char n M
  refine ⟨_, _, heq, ?_⟩
  intro q hq hcost
  have hqmem : q ∈ perms (List.range' 1 (n - 1)) := perms_complete _ q hq
  obtain ⟨⟨j, hj⟩, hget⟩ := List.mem_iff_get.mp hqmem
  rcases lt_trichotomy i j with hij | rfl | hij
  · right
    have hpair := perms_pairwise_lex (List.range' 1 (n - 1)) (range'_pairwise_lt (n - 1))
    have hlex := List.pairwise_iff_get.mp hpair ⟨i, hi⟩ ⟨j, hj⟩ (Fin.mk_lt_mk.mpr hij)
    rw [hget] at hlex
    exact hlex
  · left
    exact hget
  · exfalso
    have hlt := hfirst j hij
    have hgj : (perms (List.range' 1 (n - 1))).get ⟨j, lt_trans hij hi⟩ = q := hget
    rw [hgj] at hlt
    rw [show costo M (mkRuta q) = costo M (0 :: (q ++ [0])) from rfl, hcost] at hlt
    exact lt_irrefl _ hlt

/-- Witness for C9 at `n = 2` with the zero matrix over `ℚ`. -/
theorem C9_desempate_lexicografico_witness :
    ∃ p c, busqueda_exhaustiva 2 (fun _ _ => (0 : ℚ)) = some (0 :: (p ++ [0]), c) ∧
      ∀ q : List ℕ, q.Perm (List.range' 1 (2 - 1)) →
        costo (fun _ _ => (0 : ℚ)) (0 :: (q ++ [0])) = c →
          p = q ∨ List.Lex (· < ·) p q :=
  C9_desempate_lexicografico 2 (by norm_num) _

/-- C10: for `n = 1` both solvers return without error the degenerate route
`[0, 0]` whose cost is `matrix[0][0] = 0`. -/
theorem C10_n1_degenerado (M : ℕ → ℕ → α) (h : M 0 0 = 0) :
    busqueda_exhaustiva 1 M = some ([0, 0], 0) ∧
    vecino_mas_cercano 1 M = ([0, 0], 0) := by
  constructor
  · rw [busq_one M, h]
  · rw [nn_one M, h]

/-- Witness for C10 with the zero matrix over `ℚ`. -/
theorem C10_n1_degenerado_witness :
    busqueda_exhaustiva 1 (fun _ _ => (0 : ℚ)) = some ([0, 0], 0) ∧
    vecino_mas_cercano 1 (fun _ _ => (0 : ℚ)) = ([0, 0], 0) :=
  C10_n1_degenerado _ rfl

end Proyectus
